import Mathlib

/-!
Shallow embedding of the `riskmeasures` bootstrap-OLS core
(`src/riskmeasures/methods.py`, `src/riskmeasures/simulation.py`,
`src/riskmeasures/utils.py`).

Modelling conventions:
* numeric data is exact: machine floats become `ℚ`, and the final
  square root of `sample_std` is taken in `ℝ`;
* a Dataset of shape `(N, 2)` is a `List (ℚ × ℚ)`; a resample batch of
  shape `(B, N, 2)` is a `List (List (ℚ × ℚ))`;
* Python exceptions become `Except Err`, with `Err` following the error
  taxonomy (`TypeError`/`ValueError` raised by the validators map to the
  range/shape kinds named by the messages; `numpy.linalg.LinAlgError`
  maps to `singularDesignKind`);
* numpy's seeded generator (external library code) is modelled by a
  deterministic LCG stream; `rng.integers(0, n, size=(B, n))` becomes the
  first `B*n` stream values reduced mod `n`, laid out row-major;
* fresh OS entropy used when `seed is None` is passed in as an explicit
  `entropy : ℕ` argument;
* non-finite IEEE values (needed for the unvalidated `beta_0`/`beta_1`
  arguments of `simulate_data`) are modelled by `FloatVal`, rationals
  extended with `inf`, `ninf` and `nan` and IEEE-style `add`/`mul`.
-/

/-- Error taxonomy of the spec: each Python exception raised by the core is
mapped to the kind the spec assigns to its message. -/
inductive Err where
  | typeKind (param : String)
  | rangeKind (param : String)
  | shapeKind (param : String)
  | nonFiniteKind (param : String)
  | singularDesignKind
deriving DecidableEq, Repr

deriving instance DecidableEq for Except

/-- Model of numpy's PCG64 generator: a linear congruential generator
(Numerical Recipes constants, modulus 2^32). Only determinism and range
matter for the claims, not the distribution. -/
def lcgNext (s : ℕ) : ℕ := (1664525 * s + 1013904223) % 4294967296

/-- The k-th value of the seeded stream (k counted from 0). -/
def lcgStream (seed : ℕ) : ℕ → ℕ
  | 0 => lcgNext seed
  | k + 1 => lcgNext (lcgStream seed k)

/-- Model of `rng.integers(0, bound, ...)`: the k-th drawn index. -/
def rngInt (g bound k : ℕ) : ℕ := lcgStream g k % bound

/-- Model of `rng.normal(...)` draws: a deterministic finite rational in
[-1, 1] from the seeded stream (standard-normal draws are finite reals;
only finiteness and determinism matter for the claims). -/
def gauss (g k : ℕ) : ℚ := ((lcgStream g k % 2001 : ℕ) : ℚ) / 1000 - 1

/-- Model of `int(np.random.default_rng().integers(0, 2**31 - 1))`: the
fresh seed drawn from OS entropy when the caller omits the seed. -/
def freshSeed (entropy : ℕ) : ℤ := ((entropy % 2147483647 : ℕ) : ℤ)

/-- Python's `min_value is not None and value < min_value`. -/
def belowOpt (value : ℤ) : Option ℤ → Bool
  | none => false
  | some m => decide (value < m)

/-- Python's `max_value is not None and value > max_value`. -/
def aboveOpt (value : ℤ) : Option ℤ → Bool
  | none => false
  | some m => decide (m < value)

/-- `utils.validate_int`. The `isinstance` type check (rejecting bools and
non-ints with `TypeError`) is enforced by the `ℤ` argument type here; the
two range checks raise `ValueError`, i.e. `rangeKind`. -/
def validate_int (name : String) (value : ℤ)
    (min_value max_value : Option ℤ) : Except Err ℤ :=
  if belowOpt value min_value then .error (.rangeKind name)
  else if aboveOpt value max_value then .error (.rangeKind name)
  else .ok value

/-- `utils.validate_real`: the `isinstance` check is enforced by the `ℚ`
argument type and a rational is always finite, so the model always
succeeds, returning the value coerced to float. -/
def validate_real (name : String) (value : ℚ) : Except Err ℚ :=
  .ok value

/-- `utils.validate_positive`. -/
def validate_positive (name : String) (value : ℚ) : Except Err ℚ :=
  match validate_real name value with
  | .error err => .error err
  | .ok v => if v ≤ 0 then .error (.rangeKind name) else .ok v

/-- `utils.validate_xy_data`. `ndim == 2`, exactly 2 columns, numeric
dtype and finiteness of the entries are enforced by the
`List (ℚ × ℚ)` type; the live check is the row count, whose
`ValueError` is the spec's `shapeKind`. -/
def validate_xy_data (data : List (ℚ × ℚ)) (min_rows : ℕ) :
    Except Err (List (ℚ × ℚ)) :=
  if data.length < min_rows then .error (.shapeKind "data")
  else .ok data

/-- `utils.validate_rng_seed`: draw a fresh seed when none is given,
validate it, and return the seed together with `np.random.default_rng(seed)`
(a generator is represented by the nonnegative seed that initializes it). -/
def validate_rng_seed (seed : Option ℤ) (entropy : ℕ) :
    Except Err (ℤ × ℕ) :=
  let s := match seed with
    | none => freshSeed entropy
    | some v => v
  match validate_int "seed" s (some 0) none with
  | .error err => .error err
  | .ok v => .ok (v, v.toNat)

/-- `methods.estimate_beta`. The source builds the design matrix
`X = [1 | x]` and computes `inv(Xᵀ X) @ Xᵀ @ y`; for this 2×2 system
`Xᵀ X = [[n, Σx], [Σx, Σx²]]` and `Xᵀ y = [Σy, Σxy]`, so the solve is the
closed form below with determinant `n Σx² - (Σx)²`. `np.linalg.inv`
raises `LinAlgError` on a singular matrix, which in exact arithmetic is
exactly the case `det = 0`. -/
def estimate_beta (data : List (ℚ × ℚ)) : Except Err (ℚ × ℚ) :=
  match validate_xy_data data 2 with
  | .error err => .error err
  | .ok d =>
    let xs := d.map Prod.fst
    let ys := d.map Prod.snd
    let n : ℚ := d.length
    let sx := xs.sum
    let sxx := (xs.map fun x => x ^ 2).sum
    let sy := ys.sum
    let sxy := (List.zipWith (fun x y => x * y) xs ys).sum
    let det := n * sxx - sx ^ 2
    if det = 0 then .error .singularDesignKind
    else .ok ((sxx * sy - sx * sxy) / det, (n * sxy - sx * sy) / det)

/-- Determinant of the normal-equations matrix `Xᵀ X` built from the x
column: `n Σx² - (Σx)²`. The 2×2 matrix is singular iff this is zero. -/
def detQ (xs : List ℚ) : ℚ :=
  (xs.length : ℚ) * (xs.map fun x => x ^ 2).sum - xs.sum ^ 2

/-- `methods.bootstrap_samples`: validate, then draw a `(B, n)` index
matrix with `rng.integers(0, n, size=(B, n))` (row-major stream order)
and materialize `data[indices]`. -/
def bootstrap_samples (data : List (ℚ × ℚ)) (B : ℤ) (seed : Option ℤ)
    (entropy : ℕ) : Except Err (List (List (ℚ × ℚ))) :=
  match validate_xy_data data 2 with
  | .error err => .error err
  | .ok d =>
  match validate_int "B" B (some 1) none with
  | .error err => .error err
  | .ok Bv =>
  match validate_rng_seed seed entropy with
  | .error err => .error err
  | .ok sg =>
    let n := d.length
    let indices := (List.range Bv.toNat).map fun b =>
      (List.range n).map fun i => rngInt sg.2 n (b * n + i)
    .ok (indices.map fun row => row.map fun i => d.getD i (0, 0))

/-- Sample variance with Bessel's correction, the quantity under the
square root in `methods.sample_std`. -/
def sample_var (values : List ℚ) : ℚ :=
  let n : ℚ := values.length
  let mean_value := values.sum / n
  (values.map fun v => (v - mean_value) ^ 2).sum / (n - 1)

/-- `methods.sample_std`: the `ndim != 1` check is enforced by the
`List ℚ` type; fewer than 2 elements raises `ValueError` (too few rows:
`shapeKind`); otherwise `sqrt(Σ (v - mean)² / (n - 1))`. -/
noncomputable def sample_std (values : List ℚ) : Except Err ℝ :=
  if values.length < 2 then .error (.shapeKind "values")
  else .ok (Real.sqrt (sample_var values))

/-- Exception-propagating map, the model of a Python list comprehension
`[f(x) for x in xs]` where `f` may raise. -/
def mapE {α β : Type} (f : α → Except Err β) : List α → Except Err (List β)
  | [] => .ok []
  | a :: as =>
    match f a with
    | .error err => .error err
    | .ok b =>
      match mapE f as with
      | .error err => .error err
      | .ok bs => .ok (b :: bs)

/-- Split a list into contiguous chunks of size `c`; the first argument is
fuel bounding the recursion depth (taken as the list length). -/
def chunksAux {α : Type} : ℕ → ℕ → List α → List (List α)
  | _, _, [] => []
  | 0, _, _ => []
  | fuel + 1, c, x :: xs =>
      ((x :: xs).take c) :: chunksAux fuel c ((x :: xs).drop c)

/-- Contiguous chunks of size `c`. -/
def chunksOf {α : Type} (c : ℕ) (xs : List α) : List (List α) :=
  chunksAux xs.length c xs

/-- Model of `joblib.Parallel(n_jobs=jobs)(delayed(f)(x) for x in xs)`:
the task list is split across `jobs` workers (contiguous batches), each
worker maps `f` over its batch, and the per-worker results are
reassembled in input order; any task raising fails the whole call. -/
def parallelMapE {α β : Type} (jobs : ℕ) (f : α → Except Err β)
    (xs : List α) : Except Err (List β) :=
  let c := (xs.length + jobs - 1) / jobs
  match mapE (fun chunk => mapE f chunk) (chunksOf c xs) with
  | .error err => .error err
  | .ok results => .ok results.flatten

/-- `methods.bootstrap_beta`: validate data, `B >= 2`, `n_jobs >= 1` (the
`isinstance(parallel, bool)` check is enforced by the `Bool` type), and
the seed; resample with the validated seed; refit sequentially or via the
worker pool; return the sample standard deviation of the slope column. -/
noncomputable def bootstrap_beta (data : List (ℚ × ℚ)) (B : ℤ)
    (parallel : Bool) (n_jobs : ℤ) (seed : Option ℤ) (entropy : ℕ) :
    Except Err ℝ :=
  match validate_xy_data data 2 with
  | .error err => .error err
  | .ok d =>
  match validate_int "B" B (some 2) none with
  | .error err => .error err
  | .ok _ =>
  match validate_int "n_jobs" n_jobs (some 1) none with
  | .error err => .error err
  | .ok nj =>
  match validate_rng_seed seed entropy with
  | .error err => .error err
  | .ok sg =>
  match bootstrap_samples d B (some sg.1) entropy with
  | .error err => .error err
  | .ok samples =>
  match (if parallel then parallelMapE nj.toNat estimate_beta samples
         else mapE estimate_beta samples) with
  | .error err => .error err
  | .ok betas => sample_std (betas.map Prod.snd)

/-- IEEE-style value lattice for the unvalidated float arguments of
`simulate_data`: a finite rational, positive/negative infinity, or NaN. -/
inductive FloatVal where
  | fin (q : ℚ)
  | inf
  | ninf
  | nan
deriving DecidableEq, Repr

/-- Finiteness predicate (`np.isfinite`). -/
def FloatVal.isFinite : FloatVal → Bool
  | .fin _ => true
  | _ => false

/-- IEEE addition on the extended values. -/
def FloatVal.add : FloatVal → FloatVal → FloatVal
  | .nan, _ => .nan
  | _, .nan => .nan
  | .fin a, .fin b => .fin (a + b)
  | .inf, .ninf => .nan
  | .ninf, .inf => .nan
  | .inf, _ => .inf
  | _, .inf => .inf
  | .ninf, _ => .ninf
  | _, .ninf => .ninf

/-- IEEE multiplication on the extended values (`inf * 0 = nan`). -/
def FloatVal.mul : FloatVal → FloatVal → FloatVal
  | .nan, _ => .nan
  | _, .nan => .nan
  | .fin a, .fin b => .fin (a * b)
  | .inf, .fin b => if b < 0 then .ninf else if b = 0 then .nan else .inf
  | .fin a, .inf => if a < 0 then .ninf else if a = 0 then .nan else .inf
  | .ninf, .fin b => if b < 0 then .inf else if b = 0 then .nan else .ninf
  | .fin a, .ninf => if a < 0 then .inf else if a = 0 then .nan else .ninf
  | .inf, .inf => .inf
  | .inf, .ninf => .ninf
  | .ninf, .inf => .ninf
  | .ninf, .ninf => .inf

/-- Model of `np.random.default_rng(seed)` as called directly by
`simulation.simulate_data`: `None` draws fresh OS entropy, a negative
seed makes numpy raise `ValueError` (a range failure on `seed`), and a
nonnegative seed initializes the generator. -/
def default_rng (seed : Option ℤ) (entropy : ℕ) : Except Err ℕ :=
  match seed with
  | none => .ok (freshSeed entropy).toNat
  | some s => if s < 0 then .error (.rangeKind "seed") else .ok s.toNat

/-- The Dataset invariant of the spec on a produced array: no row may
contain a NaN or infinite entry (the finiteness part of
`validate_xy_data`). -/
def datasetFinite (d : List (FloatVal × FloatVal)) : Bool :=
  d.all fun r => r.1.isFinite && r.2.isFinite

/-- `simulation.simulate_data`: validate `N`, `x_sigma`,
`epsilon_sigma`; seed the generator; draw `x_i ~ N(0, x_sigma²)` then
`eps_i ~ N(0, eps_sigma²)` from the single stream; return rows
`(x_i, beta_0 + beta_1 * x_i + eps_i)`. `beta_0` and `beta_1` are used
without any validation, so they range over all float values. -/
def simulate_data (N : ℤ) (beta_0 beta_1 : FloatVal)
    (x_sigma epsilon_sigma : ℚ) (seed : Option ℤ) (entropy : ℕ) :
    Except Err (List (FloatVal × FloatVal)) :=
  match validate_int "N" N (some 2) none with
  | .error err => .error err
  | .ok Nv =>
  match validate_positive "x_sigma" x_sigma with
  | .error err => .error err
  | .ok xsig =>
  match validate_positive "epsilon_sigma" epsilon_sigma with
  | .error err => .error err
  | .ok esig =>
  match default_rng seed entropy with
  | .error err => .error err
  | .ok g =>
    let n := Nv.toNat
    .ok ((List.range n).map fun i =>
      let x := xsig * gauss g i
      let e := esig * gauss g (n + i)
      (FloatVal.fin x,
       FloatVal.add (FloatVal.add beta_0 (FloatVal.mul beta_1 (.fin x)))
         (.fin e)))

/-- Read primitive of the array-store model: `np.asarray` applied to an
ndarray returns the same array and performs no write. -/
def npAsarray (store : List (ℚ × ℚ)) :
    List (ℚ × ℚ) × List (ℚ × ℚ) := (store, store)

/-- Read primitive: the column slice `data[:, 0]` is a read-only view. -/
def npColFst (store : List (ℚ × ℚ)) : List ℚ × List (ℚ × ℚ) :=
  (store.map Prod.fst, store)

/-- Read primitive: the column slice `data[:, 1]` is a read-only view. -/
def npColSnd (store : List (ℚ × ℚ)) : List ℚ × List (ℚ × ℚ) :=
  (store.map Prod.snd, store)

/-- Read primitive: fancy indexing `data[indices]` copies the selected
rows out of the array without writing to it. -/
def npFancyIndex (idx : List (List ℕ)) (store : List (ℚ × ℚ)) :
    List (List (ℚ × ℚ)) × List (ℚ × ℚ) :=
  (idx.map fun row => row.map fun i => store.getD i (0, 0), store)

/-- `methods.estimate_beta` with the backing array threaded explicitly
through every numpy operation the source applies to it: the second
component of the result is the array as observable after the call. Every
step is one of the read primitives above because the source contains no
in-place write to `data`. -/
def estimate_beta_frame (data : List (ℚ × ℚ)) :
    Except Err ((ℚ × ℚ) × List (ℚ × ℚ)) :=
  let (arr, store) := npAsarray data
  match validate_xy_data arr 2 with
  | .error err => .error err
  | .ok d =>
    let (xs, store) := npColFst store
    let (ys, store) := npColSnd store
    let n : ℚ := d.length
    let sx := xs.sum
    let sxx := (xs.map fun x => x ^ 2).sum
    let sy := ys.sum
    let sxy := (List.zipWith (fun x y => x * y) xs ys).sum
    let det := n * sxx - sx ^ 2
    if det = 0 then .error .singularDesignKind
    else .ok (((sxx * sy - sx * sxy) / det, (n * sxy - sx * sy) / det),
      store)

/-- `methods.bootstrap_samples` with the backing array threaded the same
way: index generation reads only the shape, and the materialization is
the fancy-indexing read. -/
def bootstrap_samples_frame (data : List (ℚ × ℚ)) (B : ℤ)
    (seed : Option ℤ) (entropy : ℕ) :
    Except Err (List (List (ℚ × ℚ)) × List (ℚ × ℚ)) :=
  let (arr, store) := npAsarray data
  match validate_xy_data arr 2 with
  | .error err => .error err
  | .ok d =>
  match validate_int "B" B (some 1) none with
  | .error err => .error err
  | .ok Bv =>
  match validate_rng_seed seed entropy with
  | .error err => .error err
  | .ok sg =>
    let n := d.length
    let indices := (List.range Bv.toNat).map fun b =>
      (List.range n).map fun i => rngInt sg.2 n (b * n + i)
    let (samples, store) := npFancyIndex indices store
    .ok (samples, store)

/-! ### Reduction lemmas for the validators -/

theorem ok_of_validate_xy (data : List (ℚ × ℚ)) (m : ℕ)
    (h : m ≤ data.length) : validate_xy_data data m = .ok data := by
  simp [validate_xy_data, Nat.not_lt.2 h]

theorem validate_xy_eq (data : List (ℚ × ℚ)) (m : ℕ) (d : List (ℚ × ℚ))
    (h : validate_xy_data data m = .ok d) : d = data := by
  unfold validate_xy_data at h
  split at h
  · cases h
  · injection h with h
    exact h.symm

theorem ok_of_validate_int (name : String) (v m : ℤ) (h : m ≤ v) :
    validate_int name v (some m) none = .ok v := by
  have hlt : ¬ v < m := not_lt.2 h
  simp [validate_int, belowOpt, aboveOpt, hlt]

theorem validate_rng_seed_some (s : ℤ) (e : ℕ) (h : 0 ≤ s) :
    validate_rng_seed (some s) e = .ok (s, s.toNat) := by
  simp [validate_rng_seed, ok_of_validate_int "seed" s 0 h]

/-! ### Lemmas about `mapE` and the worker-pool model -/

theorem mapE_length {α β : Type} (f : α → Except Err β) :
    ∀ (xs : List α) (ys : List β), mapE f xs = .ok ys →
      ys.length = xs.length := by
  intro xs
  induction xs with
  | nil =>
    intro ys h
    simp only [mapE, Except.ok.injEq] at h
    simp [← h]
  | cons a as ih =>
    intro ys h
    simp only [mapE] at h
    cases hfa : f a with
    | error err => rw [hfa] at h; cases h
    | ok b =>
      rw [hfa] at h
      cases hrest : mapE f as with
      | error err => rw [hrest] at h; cases h
      | ok bs =>
        rw [hrest] at h
        simp only [Except.ok.injEq] at h
        rw [← h]
        simp [ih bs hrest]

theorem mapE_append {α β : Type} (f : α → Except Err β) (l₁ l₂ : List α) :
    mapE f (l₁ ++ l₂) =
      match mapE f l₁ with
      | .error err => .error err
      | .ok bs =>
        match mapE f l₂ with
        | .error err => .error err
        | .ok cs => .ok (bs ++ cs) := by
  induction l₁ with
  | nil => cases h : mapE f l₂ <;> simp [mapE, h]
  | cons a as ih =>
    have unfold1 : mapE f ((a :: as) ++ l₂) =
        match f a with
        | .error err => .error err
        | .ok b =>
          match mapE f (as ++ l₂) with
          | .error err => .error err
          | .ok bs => .ok (b :: bs) := rfl
    have unfold2 : mapE f (a :: as) =
        match f a with
        | .error err => .error err
        | .ok b =>
          match mapE f as with
          | .error err => .error err
          | .ok bs => .ok (b :: bs) := rfl
    rw [unfold1, unfold2, ih]
    cases f a with
    | error err => rfl
    | ok b =>
      cases mapE f as with
      | error err => rfl
      | ok bs =>
        cases mapE f l₂ with
        | error err => rfl
        | ok cs => rfl

theorem mapE_chunksAux {α β : Type} (f : α → Except Err β) :
    ∀ (fuel c : ℕ) (xs : List α), xs.length ≤ fuel → 1 ≤ c →
      (match mapE (fun chunk => mapE f chunk) (chunksAux fuel c xs) with
       | .error err => .error err
       | .ok results => .ok results.flatten) = mapE f xs := by
  intro fuel
  induction fuel with
  | zero =>
    intro c xs hlen _
    have hnil : xs = [] := List.length_eq_zero.1 (Nat.le_zero.1 hlen)
    subst hnil
    simp [chunksAux, mapE]
  | succ fuel ih =>
    intro c xs hlen hc
    cases xs with
    | nil => simp [chunksAux, mapE]
    | cons x rest =>
      have hlen2 : ((x :: rest).drop c).length ≤ fuel := by
        simp only [List.length_drop, List.length_cons]
        simp only [List.length_cons] at hlen
        omega
      have hsplit := List.take_append_drop c (x :: rest)
      conv_rhs => rw [← hsplit]
      rw [mapE_append]
      simp only [chunksAux, mapE]
      cases h1 : mapE f ((x :: rest).take c) with
      | error err => rfl
      | ok ys =>
        have ih2 := ih c ((x :: rest).drop c) hlen2 hc
        cases h2 : mapE (fun chunk => mapE f chunk)
            (chunksAux fuel c ((x :: rest).drop c)) with
        | error err =>
          rw [h2] at ih2
          rw [← ih2]
        | ok results =>
          rw [h2] at ih2
          rw [← ih2]
          simp

theorem parallelMapE_eq {α β : Type} (jobs : ℕ) (f : α → Except Err β)
    (xs : List α) (hj : 1 ≤ jobs) : parallelMapE jobs f xs = mapE f xs := by
  cases xs with
  | nil => simp [parallelMapE, chunksOf, chunksAux, mapE]
  | cons x rest =>
    have hc : 1 ≤ ((x :: rest).length + jobs - 1) / jobs := by
      rw [Nat.le_div_iff_mul_le (by omega : 0 < jobs)]
      simp only [List.length_cons, one_mul]
      omega
    have := mapE_chunksAux f (x :: rest).length
      (((x :: rest).length + jobs - 1) / jobs) (x :: rest) le_rfl hc
    simpa [parallelMapE, chunksOf] using this

/-! ### Pipeline characterization of `bootstrap_beta` -/

theorem bootstrap_beta_pipeline (data : List (ℚ × ℚ)) (B n_jobs s : ℤ)
    (par : Bool) (e : ℕ) (hd : 2 ≤ data.length) (hB : 2 ≤ B)
    (hj : 1 ≤ n_jobs) (hs : 0 ≤ s) :
    bootstrap_beta data B par n_jobs (some s) e =
      match bootstrap_samples data B (some s) e with
      | .error err => .error err
      | .ok samples =>
        match mapE estimate_beta samples with
        | .error err => .error err
        | .ok betas => sample_std (betas.map Prod.snd) := by
  simp only [bootstrap_beta, ok_of_validate_xy data 2 hd,
    ok_of_validate_int "B" B 2 hB, ok_of_validate_int "n_jobs" n_jobs 1 hj,
    validate_rng_seed_some s e hs]
  cases h1 : bootstrap_samples data B (some s) e with
  | error err => rfl
  | ok samples =>
    cases par with
    | false => rfl
    | true =>
      show (match parallelMapE n_jobs.toNat estimate_beta samples with
            | .error err => Except.error err
            | .ok betas => sample_std (betas.map Prod.snd)) =
          (match mapE estimate_beta samples with
            | .error err => Except.error err
            | .ok betas => sample_std (betas.map Prod.snd))
      rw [parallelMapE_eq n_jobs.toNat estimate_beta samples (by omega)]

theorem bootstrap_beta_ok (data : List (ℚ × ℚ)) (B n_jobs s : ℤ)
    (par : Bool) (e : ℕ) (samples : List (List (ℚ × ℚ)))
    (betas : List (ℚ × ℚ)) (hd : 2 ≤ data.length) (hB : 2 ≤ B)
    (hj : 1 ≤ n_jobs) (hs : 0 ≤ s)
    (h1 : bootstrap_samples data B (some s) e = .ok samples)
    (h2 : mapE estimate_beta samples = .ok betas) :
    bootstrap_beta data B par n_jobs (some s) e =
      sample_std (betas.map Prod.snd) := by
  rw [bootstrap_beta_pipeline data B n_jobs s par e hd hB hj hs, h1]
  show (match mapE estimate_beta samples with
        | .error err => Except.error err
        | .ok betas => sample_std (betas.map Prod.snd)) = _
  rw [h2]

theorem bootstrap_samples_ok_shape (data : List (ℚ × ℚ)) (B s : ℤ) (e : ℕ)
    (samples : List (List (ℚ × ℚ))) (hd : 2 ≤ data.length) (hB : 1 ≤ B)
    (hs : 0 ≤ s) (h : bootstrap_samples data B (some s) e = .ok samples) :
    samples.length = B.toNat := by
  simp only [bootstrap_samples, ok_of_validate_xy data 2 hd,
    ok_of_validate_int "B" B 1 hB, validate_rng_seed_some s e hs,
    Except.ok.injEq] at h
  rw [← h]
  simp

/-! ### Determinant of the normal equations -/

theorem sum_sq_diff (x : ℚ) (xs : List ℚ) :
    (xs.map fun y => (x - y) ^ 2).sum =
      (xs.length : ℚ) * x ^ 2 - 2 * x * xs.sum
        + (xs.map fun y => y ^ 2).sum := by
  induction xs with
  | nil => simp
  | cons z zs ih =>
    simp only [List.map_cons, List.sum_cons, List.length_cons, ih]
    push_cast
    ring

theorem detQ_cons (x : ℚ) (xs : List ℚ) :
    detQ (x :: xs) = detQ xs + (xs.map fun y => (x - y) ^ 2).sum := by
  simp only [detQ, List.length_cons, List.map_cons, List.sum_cons,
    sum_sq_diff]
  push_cast
  ring

theorem detQ_nonneg (xs : List ℚ) : 0 ≤ detQ xs := by
  induction xs with
  | nil => simp [detQ]
  | cons x rest ih =>
    rw [detQ_cons]
    have h2 : 0 ≤ (rest.map fun y => (x - y) ^ 2).sum := by
      apply List.sum_nonneg
      intro a ha
      simp only [List.mem_map] at ha
      obtain ⟨y, _, rfl⟩ := ha
      positivity
    linarith

theorem detQ_pos (xs : List ℚ) (u v : ℚ) (huv : u ≠ v) :
    u ∈ xs → v ∈ xs → 0 < detQ xs := by
  induction xs with
  | nil => intro hu _; cases hu
  | cons x rest ih =>
    intro hu hv
    rw [detQ_cons]
    have hnn : 0 ≤ detQ rest := detQ_nonneg rest
    have hsum_nn : ∀ a ∈ rest.map fun y => (x - y) ^ 2, 0 ≤ a := by
      intro a ha
      simp only [List.mem_map] at ha
      obtain ⟨y, _, rfl⟩ := ha
      positivity
    rcases List.mem_cons.1 hu with rfl | hu'
    · rcases List.mem_cons.1 hv with rfl | hv'
      · exact absurd rfl huv
      · have hmem : (u - v) ^ 2 ∈ rest.map fun y => (u - y) ^ 2 :=
          List.mem_map_of_mem _ hv'
        have hpos : 0 < (u - v) ^ 2 :=
          lt_of_le_of_ne (sq_nonneg _)
            (Ne.symm (pow_ne_zero 2 (sub_ne_zero.2 huv)))
        have hle := List.single_le_sum hsum_nn _ hmem
        linarith
    · rcases List.mem_cons.1 hv with rfl | hv'
      · have hmem : (v - u) ^ 2 ∈ rest.map fun y => (v - y) ^ 2 :=
          List.mem_map_of_mem _ hu'
        have hpos : 0 < (v - u) ^ 2 :=
          lt_of_le_of_ne (sq_nonneg _)
            (Ne.symm (pow_ne_zero 2 (sub_ne_zero.2 (Ne.symm huv))))
        have hle := List.single_le_sum hsum_nn _ hmem
        linarith
      · have hrec := ih hu' hv'
        have hs2 : 0 ≤ (rest.map fun y => (x - y) ^ 2).sum :=
          List.sum_nonneg hsum_nn
        linarith

theorem detQ_replicate (n : ℕ) (c : ℚ) : detQ (List.replicate n c) = 0 := by
  simp [detQ, List.map_replicate, List.sum_replicate, nsmul_eq_mul]
  ring

/-! ### Sums under an exact affine relation -/

theorem affine_sums (data : List (ℚ × ℚ)) (a b : ℚ)
    (h : ∀ p ∈ data, p.2 = a + b * p.1) :
    (data.map Prod.snd).sum
        = a * (data.length : ℚ) + b * (data.map Prod.fst).sum ∧
      (List.zipWith (fun x y => x * y) (data.map Prod.fst)
          (data.map Prod.snd)).sum
        = a * (data.map Prod.fst).sum
            + b * ((data.map Prod.fst).map fun x => x ^ 2).sum := by
  induction data with
  | nil => simp
  | cons p rest ih =>
    have hp := h p (List.mem_cons_self p rest)
    have ihh := ih fun q hq => h q (List.mem_cons_of_mem p hq)
    constructor
    · simp only [List.map_cons, List.sum_cons, List.length_cons, ihh.1]
      rw [hp]
      push_cast
      ring
    · simp only [List.map_cons, List.zipWith_cons_cons, List.sum_cons,
        ihh.2]
      rw [hp]
      ring

/-! ### Membership of indexed reads and positivity of the variance -/

theorem getD_mem {α : Type} (l : List α) (i : ℕ) (d : α)
    (h : i < l.length) : l.getD i d ∈ l := by
  induction l generalizing i with
  | nil => simp at h
  | cons x rest ih =>
    cases i with
    | zero => simp
    | succ j =>
      simp only [List.getD_cons_succ]
      exact List.mem_cons_of_mem x (ih j (by simpa using h))

theorem sample_var_pos (values : List ℚ) (u v : ℚ) (hu : u ∈ values)
    (hv : v ∈ values) (huv : u ≠ v) : 0 < sample_var values := by
  have hlen : 2 ≤ values.length := by
    rcases values with _ | ⟨a, _ | ⟨b, rest⟩⟩
    · cases hu
    · simp only [List.mem_singleton] at hu hv
      exact absurd (hu.trans hv.symm) huv
    · simp only [List.length_cons]
      omega
  have hex : ∃ w ∈ values, w ≠ values.sum / (values.length : ℚ) := by
    by_contra hall
    push_neg at hall
    exact huv ((hall u hu).trans (hall v hv).symm)
  obtain ⟨w, hw, hwm⟩ := hex
  have hterm : 0 < (w - values.sum / (values.length : ℚ)) ^ 2 :=
    lt_of_le_of_ne (sq_nonneg _)
      (Ne.symm (pow_ne_zero 2 (sub_ne_zero.2 hwm)))
  have hnn : ∀ a ∈ values.map
      fun x => (x - values.sum / (values.length : ℚ)) ^ 2, 0 ≤ a := by
    intro a ha
    simp only [List.mem_map] at ha
    obtain ⟨y, _, rfl⟩ := ha
    positivity
  have hle := List.single_le_sum hnn _
    (List.mem_map_of_mem (fun x => (x - values.sum / (values.length : ℚ)) ^ 2) hw)
  have hden : 0 < (values.length : ℚ) - 1 := by
    have h2 : (2 : ℚ) ≤ (values.length : ℚ) := by exact_mod_cast hlen
    linarith
  unfold sample_var
  exact div_pos (lt_of_lt_of_le hterm hle) hden

/-! ### Non-finite propagation in `FloatVal` arithmetic -/

theorem FloatVal.add_not_finite (a b : FloatVal)
    (h : a.isFinite = false ∨ b.isFinite = false) :
    (FloatVal.add a b).isFinite = false := by
  cases a <;> cases b <;>
    first
      | rfl
      | simp [FloatVal.isFinite] at h

theorem FloatVal.mul_fin_not_finite (b : FloatVal) (x : ℚ)
    (h : b.isFinite = false) :
    (FloatVal.mul b (.fin x)).isFinite = false := by
  cases b with
  | fin q => simp [FloatVal.isFinite] at h
  | inf =>
    show (if x < 0 then FloatVal.ninf
          else if x = 0 then FloatVal.nan
          else FloatVal.inf).isFinite = false
    split_ifs <;> rfl
  | ninf =>
    show (if x < 0 then FloatVal.inf
          else if x = 0 then FloatVal.nan
          else FloatVal.ninf).isFinite = false
    split_ifs <;> rfl
  | nan => rfl

theorem simulate_y_not_finite (b0 b1 : FloatVal) (x e : ℚ)
    (h : ¬(b0.isFinite = true ∧ b1.isFinite = true)) :
    (FloatVal.add (FloatVal.add b0 (FloatVal.mul b1 (.fin x)))
      (.fin e)).isFinite = false := by
  apply FloatVal.add_not_finite
  left
  rcases Bool.eq_false_or_eq_true b1.isFinite with hb1 | hb1
  · have hb0 : b0.isFinite = false := by
      cases hb0 : b0.isFinite
      · rfl
      · exact absurd ⟨hb0, hb1⟩ h
    exact FloatVal.add_not_finite _ _ (Or.inl hb0)
  · exact FloatVal.add_not_finite _ _
      (Or.inr (FloatVal.mul_fin_not_finite b1 x hb1))

/-! ### Claim theorems -/

/-- C8: each public operation validates at its entry point and fails with
the corresponding distinguishable kind: `fit` on a 1-row Dataset fails
with `shapeKind`; `simulate` with `N = 1` fails with `rangeKind` on `N`
for any other arguments; `bootstrap_se` with `B = 1` fails with
`rangeKind` on `B`; a negative seed fails with `rangeKind` on `seed`,
both in `bootstrap_se` and in `simulate`; no invalid input is silently
coerced or defaulted. -/
theorem entry_validation_cases :
    (∀ p : ℚ × ℚ, estimate_beta [p] = .error (.shapeKind "data")) ∧
    (∀ (beta_0 beta_1 : FloatVal) (x_sigma epsilon_sigma : ℚ)
        (seed : Option ℤ) (e : ℕ),
        simulate_data 1 beta_0 beta_1 x_sigma epsilon_sigma seed e
          = .error (.rangeKind "N")) ∧
    (∀ (par : Bool) (n_jobs : ℤ) (seed : Option ℤ) (e : ℕ),
        bootstrap_beta [((0 : ℚ), (0 : ℚ)), (1, 1)] 1 par n_jobs seed e
          = .error (.rangeKind "B")) ∧
    (∀ (par : Bool) (e : ℕ),
        bootstrap_beta [((0 : ℚ), (0 : ℚ)), (1, 1)] 2 par 1 (some (-1)) e
          = .error (.rangeKind "seed")) ∧
    (∀ e : ℕ,
        simulate_data 2 (.fin 1) (.fin 2) 1 1 (some (-3)) e
          = .error (.rangeKind "seed")) :=
  ⟨fun _ => rfl, fun _ _ _ _ _ _ => rfl, fun _ _ _ _ => rfl,
   fun _ _ => rfl, fun _ => rfl⟩

/-- C3: on any Dataset of at least two rows whose normal-equations matrix
`Xᵀ X` is singular (zero determinant; in particular whenever all x values
are identical), `fit` fails with the distinguishable
`singularDesignKind` error instead of returning coefficients. -/
theorem singular_design_errors :
    (∀ data : List (ℚ × ℚ), 2 ≤ data.length →
        detQ (data.map Prod.fst) = 0 →
        estimate_beta data = .error .singularDesignKind) ∧
    (∀ (data : List (ℚ × ℚ)) (c : ℚ), 2 ≤ data.length →
        (∀ p ∈ data, p.1 = c) →
        estimate_beta data = .error .singularDesignKind) := by
  have main : ∀ data : List (ℚ × ℚ), 2 ≤ data.length →
      detQ (data.map Prod.fst) = 0 →
      estimate_beta data = .error .singularDesignKind := by
    intro data hlen hdet
    have hd : (data.length : ℚ)
        * ((data.map Prod.fst).map fun x => x ^ 2).sum
        - (data.map Prod.fst).sum ^ 2 = 0 := by
      unfold detQ at hdet
      rwa [List.length_map] at hdet
    simp only [estimate_beta, ok_of_validate_xy data 2 hlen]
    rw [if_pos hd]
  refine ⟨main, fun data c hlen hc => main data hlen ?_⟩
  have hrep : data.map Prod.fst
      = List.replicate (data.map Prod.fst).length c := by
    apply List.eq_replicate_of_mem
    intro b hb
    simp only [List.mem_map] at hb
    obtain ⟨p, hp, rfl⟩ := hb
    exact hc p hp
  rw [hrep, detQ_replicate]

/-- C3 witness: a concrete two-row Dataset with both x values equal to 1
has a singular design and `fit` fails with `singularDesignKind`. -/
theorem singular_design_errors_witness :
    detQ ([((1 : ℚ), (2 : ℚ)), (1, 3)].map Prod.fst) = 0 ∧
    estimate_beta [((1 : ℚ), (2 : ℚ)), (1, 3)]
      = .error .singularDesignKind :=
  ⟨by norm_num [detQ],
   singular_design_errors.1 [((1 : ℚ), (2 : ℚ)), (1, 3)] (by decide)
     (by norm_num [detQ])⟩

/-- C4: on any Dataset lying exactly on the line `y = a + b x` with at
least two distinct x values, `fit` returns exactly `(a, b)`; in
particular on x = [0,1,2,3], y = [1,3,5,7] it returns `(1, 2)`. -/
theorem noiseless_affine_recovery :
    (∀ (data : List (ℚ × ℚ)) (a b : ℚ), 2 ≤ data.length →
        (∀ p ∈ data, p.2 = a + b * p.1) →
        (∃ p ∈ data, ∃ q ∈ data, p.1 ≠ q.1) →
        estimate_beta data = .ok (a, b)) ∧
    estimate_beta [((0 : ℚ), (1 : ℚ)), (1, 3), (2, 5), (3, 7)]
      = .ok (1, 2) := by
  constructor
  · intro data a b hlen haff hex
    obtain ⟨p, hp, q, hq, hpq⟩ := hex
    have hdetpos : 0 < detQ (data.map Prod.fst) :=
      detQ_pos (data.map Prod.fst) p.1 q.1 hpq
        (List.mem_map_of_mem Prod.fst hp) (List.mem_map_of_mem Prod.fst hq)
    have hdet : (data.length : ℚ)
        * ((data.map Prod.fst).map fun x => x ^ 2).sum
        - (data.map Prod.fst).sum ^ 2 ≠ 0 := by
      unfold detQ at hdetpos
      rw [List.length_map] at hdetpos
      exact hdetpos.ne'
    obtain ⟨h1, h2⟩ := affine_sums data a b haff
    simp only [estimate_beta, ok_of_validate_xy data 2 hlen]
    rw [if_neg hdet, h1, h2]
    simp only [Except.ok.injEq, Prod.mk.injEq]
    constructor
    · rw [div_eq_iff hdet]; ring
    · rw [div_eq_iff hdet]; ring
  · norm_num [estimate_beta, validate_xy_data]

/-- C4 witness: the data y = 5 + 3x at x = 0 and x = 2 recovers the pair
(5, 3) exactly. -/
theorem noiseless_affine_recovery_witness :
    estimate_beta [((0 : ℚ), (5 : ℚ)), (2, 11)] = .ok (5, 3) :=
  noiseless_affine_recovery.1 [((0 : ℚ), (5 : ℚ)), (2, 11)] 5 3
    (by decide) (by norm_num)
    ⟨(0, 5), by simp, (2, 11), by simp, by norm_num⟩

/-- C5: `resample` on a valid Dataset with `B >= 1` and a nonnegative
seed succeeds with a batch of exactly B resamples, each of exactly N rows
(shape (B, N, 2) by the pair type), and every row of every resample is a
row of the source Dataset. -/
theorem resample_shape_and_rows :
    ∀ (data : List (ℚ × ℚ)) (B s : ℤ) (e : ℕ),
      2 ≤ data.length → 1 ≤ B → 0 ≤ s →
      ∃ samples,
        bootstrap_samples data B (some s) e = .ok samples ∧
        (samples.length : ℤ) = B ∧
        ∀ smp ∈ samples, smp.length = data.length ∧
          ∀ row ∈ smp, row ∈ data := by
  intro data B s e hd hB hs
  simp only [bootstrap_samples, ok_of_validate_xy data 2 hd,
    ok_of_validate_int "B" B 1 hB, validate_rng_seed_some s e hs]
  refine ⟨_, rfl, ?_, ?_⟩
  · simp only [List.length_map, List.length_range]
    omega
  · intro smp hsmp
    simp only [List.mem_map] at hsmp
    obtain ⟨row, hrow, rfl⟩ := hsmp
    obtain ⟨bidx, _, rfl⟩ := hrow
    constructor
    · simp
    · intro r hr
      obtain ⟨idx, hidx, rfl⟩ := List.mem_map.1 hr
      obtain ⟨i, _, rfl⟩ := List.mem_map.1 hidx
      apply getD_mem
      unfold rngInt
      exact Nat.mod_lt _ (by omega)

/-- C5 witness: a concrete run on a two-row Dataset with B = 2 and
seed 0. -/
theorem resample_shape_and_rows_witness :
    ∃ samples,
      bootstrap_samples [((0 : ℚ), (0 : ℚ)), (1, 1)] 2 (some 0) 0
        = .ok samples ∧
      (samples.length : ℤ) = 2 ∧
      ∀ smp ∈ samples,
        smp.length = [((0 : ℚ), (0 : ℚ)), (1, 1)].length ∧
          ∀ row ∈ smp, row ∈ [((0 : ℚ), (0 : ℚ)), (1, 1)] :=
  resample_shape_and_rows [((0 : ℚ), (0 : ℚ)), (1, 1)] 2 0 0 (by decide)
    (by decide) (by decide)

/-- C2: the `parallel` flag of `bootstrap_se` is purely an
execution-strategy switch: on a valid Dataset with `B >= 2` and
`worker_count >= 1`, the parallel worker-pool path returns exactly the
same value as the sequential path for every seed. -/
theorem parallel_matches_sequential :
    ∀ (data : List (ℚ × ℚ)) (B n_jobs : ℤ) (seed : Option ℤ) (e : ℕ),
      2 ≤ data.length → 2 ≤ B → 1 ≤ n_jobs →
      bootstrap_beta data B true n_jobs seed e
        = bootstrap_beta data B false n_jobs seed e := by
  intro data B nj seed e hd hB hj
  cases hsg : validate_rng_seed seed e with
  | error err =>
    simp only [bootstrap_beta, ok_of_validate_xy data 2 hd,
      ok_of_validate_int "B" B 2 hB, ok_of_validate_int "n_jobs" nj 1 hj,
      hsg]
  | ok sg =>
    simp only [bootstrap_beta, ok_of_validate_xy data 2 hd,
      ok_of_validate_int "B" B 2 hB, ok_of_validate_int "n_jobs" nj 1 hj,
      hsg]
    cases hbs : bootstrap_samples data B (some sg.1) e with
    | error err => rfl
    | ok samples =>
      show (match parallelMapE nj.toNat estimate_beta samples with
            | .error err => Except.error err
            | .ok betas => sample_std (betas.map Prod.snd)) =
          (match mapE estimate_beta samples with
            | .error err => Except.error err
            | .ok betas => sample_std (betas.map Prod.snd))
      rw [parallelMapE_eq nj.toNat estimate_beta samples (by omega)]

/-- C2 witness: a concrete run where the parallel and sequential paths
agree. -/
theorem parallel_matches_sequential_witness :
    bootstrap_beta [((0 : ℚ), (0 : ℚ)), (1, 1)] 2 true 1 (some 0) 0
      = bootstrap_beta [((0 : ℚ), (0 : ℚ)), (1, 1)] 2 false 1 (some 0) 0 :=
  parallel_matches_sequential [((0 : ℚ), (0 : ℚ)), (1, 1)] 2 1 (some 0) 0
    (by decide) (by decide) (by decide)

/-- C1: on a valid Dataset with `B >= 2`, a worker count `>= 1` and a
nonnegative seed, whenever the resampling and the B refits succeed,
`bootstrap_se` returns exactly the Bessel-corrected sample standard
deviation (divisor B - 1, mean over the B values) of the slope
components of the coefficient vectors obtained by applying `fit` to each
of the B resamples produced by `resample` with that same seed. -/
theorem bootstrap_se_matches_slope_std :
    ∀ (data : List (ℚ × ℚ)) (B n_jobs s : ℤ) (par : Bool) (e : ℕ)
      (samples : List (List (ℚ × ℚ))) (betas : List (ℚ × ℚ)),
      2 ≤ data.length → 2 ≤ B → 1 ≤ n_jobs → 0 ≤ s →
      bootstrap_samples data B (some s) e = .ok samples →
      mapE estimate_beta samples = .ok betas →
      bootstrap_beta data B par n_jobs (some s) e =
        .ok (Real.sqrt
          (((((betas.map Prod.snd).map fun v =>
              (v - (betas.map Prod.snd).sum / (B : ℚ)) ^ 2).sum
            / ((B : ℚ) - 1)) : ℚ) : ℝ)) := by
  intro data B nj s par e samples betas hd hB hj hs h1 h2
  rw [bootstrap_beta_ok data B nj s par e samples betas hd hB hj hs h1 h2]
  have hslen : (betas.map Prod.snd).length = B.toNat := by
    rw [List.length_map, mapE_length estimate_beta samples betas h2,
      bootstrap_samples_ok_shape data B s e samples hd (by omega) hs h1]
  have hcast : ((B.toNat : ℕ) : ℚ) = (B : ℚ) := by
    have h0 := Int.toNat_of_nonneg (by omega : (0 : ℤ) ≤ B)
    exact_mod_cast congrArg (fun z : ℤ => (z : ℚ)) h0
  simp only [sample_std, sample_var]
  rw [if_neg (by omega : ¬ (betas.map Prod.snd).length < 2)]
  rw [hslen, hcast]

/-- C1 witness: a concrete three-row Dataset, B = 2, seed 0; the two
resamples, the two fitted coefficient pairs, and the final value are all
explicit. -/
theorem bootstrap_se_matches_slope_std_witness :
    bootstrap_beta [((0 : ℚ), (0 : ℚ)), (1, 1), (2, 4)] 2 false 1
        (some 0) 0 =
      .ok (Real.sqrt
        ((((([((-2 : ℚ), (3 : ℚ)), (-1/3, 2)].map Prod.snd).map fun v =>
            (v - ([((-2 : ℚ), (3 : ℚ)), (-1/3, 2)].map Prod.snd).sum
              / ((2 : ℤ) : ℚ)) ^ 2).sum
          / (((2 : ℤ) : ℚ) - 1)) : ℚ) : ℝ)) :=
  bootstrap_se_matches_slope_std [((0 : ℚ), (0 : ℚ)), (1, 1), (2, 4)]
    2 1 0 false 0
    [[((1 : ℚ), (1 : ℚ)), (2, 4), (1, 1)], [(2, 4), (1, 1), (0, 0)]]
    [((-2 : ℚ), (3 : ℚ)), (-1/3, 2)]
    (by decide) (by decide) (by decide) (by decide) (by decide)
    (by norm_num [mapE, estimate_beta, validate_xy_data])

/-- C7 counterexample: a valid, non-degenerate two-point Dataset (the two
x values differ, so the design is non-singular) on which `bootstrap_se`
with B = 2 and seed 0 returns exactly 0, not a strictly positive value:
both model resamples contain both points, so both refitted slopes are
equal and the sample standard deviation vanishes. -/
theorem bootstrap_se_zero_counterexample :
    detQ ([((0 : ℚ), (0 : ℚ)), (1, 1)].map Prod.fst) ≠ 0 ∧
    bootstrap_beta [((0 : ℚ), (0 : ℚ)), (1, 1)] 2 false 1 (some 0) 0
      = .ok 0 := by
  constructor
  · norm_num [detQ]
  · rw [bootstrap_beta_ok [((0 : ℚ), (0 : ℚ)), (1, 1)] 2 1 0 false 0
      [[((1 : ℚ), (1 : ℚ)), (0, 0)], [(1, 1), (0, 0)]]
      [((0 : ℚ), (1 : ℚ)), (0, 1)]
      (by decide) (by decide) (by decide) (by decide) (by decide)
      (by norm_num [mapE, estimate_beta, validate_xy_data])]
    show sample_std [1, 1] = .ok 0
    simp only [sample_std]
    rw [if_neg (by decide : ¬ [(1 : ℚ), 1].length < 2)]
    have hv : sample_var [(1 : ℚ), 1] = 0 := by norm_num [sample_var]
    rw [hv]
    simp

/-- C7 amended: on valid inputs, whenever resampling and all refits
succeed, `bootstrap_se` returns a nonnegative value, and a strictly
positive one whenever the refitted slope values are not all equal (two
of them differ); it returns 0 when all B slopes coincide, which can
happen on non-degenerate data. -/
theorem bootstrap_se_nonneg_amended :
    ∀ (data : List (ℚ × ℚ)) (B n_jobs s : ℤ) (par : Bool) (e : ℕ)
      (samples : List (List (ℚ × ℚ))) (betas : List (ℚ × ℚ)) (r : ℝ),
      2 ≤ data.length → 2 ≤ B → 1 ≤ n_jobs → 0 ≤ s →
      bootstrap_samples data B (some s) e = .ok samples →
      mapE estimate_beta samples = .ok betas →
      bootstrap_beta data B par n_jobs (some s) e = .ok r →
      0 ≤ r ∧ ((∃ u ∈ betas.map Prod.snd, ∃ v ∈ betas.map Prod.snd,
        u ≠ v) → 0 < r) := by
  intro data B nj s par e samples betas r hd hB hj hs h1 h2 hr
  rw [bootstrap_beta_ok data B nj s par e samples betas hd hB hj hs h1 h2]
    at hr
  have hslen : (betas.map Prod.snd).length = B.toNat := by
    rw [List.length_map, mapE_length estimate_beta samples betas h2,
      bootstrap_samples_ok_shape data B s e samples hd (by omega) hs h1]
  simp only [sample_std] at hr
  rw [if_neg (by omega : ¬ (betas.map Prod.snd).length < 2)] at hr
  simp only [Except.ok.injEq] at hr
  subst hr
  constructor
  · exact Real.sqrt_nonneg _
  · rintro ⟨u, hu, v, hv, huv⟩
    apply Real.sqrt_pos.2
    have hq : 0 < sample_var (betas.map Prod.snd) :=
      sample_var_pos (betas.map Prod.snd) u v hu hv huv
    exact_mod_cast hq

/-- C7 amended witness: a three-point Dataset with seed 0 produces two
resamples whose slopes (3 and 2) differ, so the returned value is
strictly positive. -/
theorem bootstrap_se_nonneg_amended_witness :
    0 < Real.sqrt ((sample_var [(3 : ℚ), 2] : ℚ) : ℝ) := by
  have hr : bootstrap_beta [((0 : ℚ), (0 : ℚ)), (1, 1), (2, 4)] 2 false 1
      (some 0) 0 = .ok (Real.sqrt ((sample_var [(3 : ℚ), 2] : ℚ) : ℝ)) := by
    rw [bootstrap_beta_ok [((0 : ℚ), (0 : ℚ)), (1, 1), (2, 4)] 2 1 0
      false 0
      [[((1 : ℚ), (1 : ℚ)), (2, 4), (1, 1)], [(2, 4), (1, 1), (0, 0)]]
      [((-2 : ℚ), (3 : ℚ)), (-1/3, 2)]
      (by decide) (by decide) (by decide) (by decide) (by decide)
      (by norm_num [mapE, estimate_beta, validate_xy_data])]
    rfl
  exact (bootstrap_se_nonneg_amended [((0 : ℚ), (0 : ℚ)), (1, 1), (2, 4)]
    2 1 0 false 0
    [[((1 : ℚ), (1 : ℚ)), (2, 4), (1, 1)], [(2, 4), (1, 1), (0, 0)]]
    [((-2 : ℚ), (3 : ℚ)), (-1/3, 2)]
    (Real.sqrt ((sample_var [(3 : ℚ), 2] : ℚ) : ℝ))
    (by decide) (by decide) (by decide) (by decide) (by decide)
    (by norm_num [mapE, estimate_beta, validate_xy_data]) hr).2
    ⟨3, by decide, 2, by decide, by norm_num⟩

/-- C6 counterexample: with the seed omitted, two runs of `resample`
that internally draw different fresh seeds (from entropies 0 and 2)
return identical batches, and the batch is the operation's entire return
value; the seed actually used is therefore not reported to the caller
and cannot be recovered from the result. -/
theorem seed_not_reported_counterexample :
    freshSeed 0 ≠ freshSeed 2 ∧
    bootstrap_samples [((0 : ℚ), (0 : ℚ)), (1, 1)] 1 none 0
      = bootstrap_samples [((0 : ℚ), (0 : ℚ)), (1, 1)] 1 none 2 :=
  ⟨by decide, by decide⟩

/-- C6 amended: `validate_rng_seed` is the only place the seed is
surfaced: it draws a fresh seed when none is supplied and returns the
seed it actually used together with a generator seeded by exactly that
seed, and it returns a supplied nonnegative seed unchanged; the core
operations themselves return only their data or statistic and do not
report the seed. -/
theorem seed_reporting_amended :
    ∀ e : ℕ,
      validate_rng_seed none e = .ok (freshSeed e, (freshSeed e).toNat) ∧
      ∀ s : ℤ, 0 ≤ s →
        validate_rng_seed (some s) e = .ok (s, s.toNat) := by
  intro e
  constructor
  · have h0 : (0 : ℤ) ≤ freshSeed e := by
      unfold freshSeed
      exact Int.natCast_nonneg _
    simp [validate_rng_seed, ok_of_validate_int "seed" (freshSeed e) 0 h0]
  · intro s hs
    exact validate_rng_seed_some s e hs

/-- C6 amended witness: entropy 7 with no seed, and the supplied seed 5. -/
theorem seed_reporting_amended_witness :
    validate_rng_seed none 7 = .ok (freshSeed 7, (freshSeed 7).toNat) ∧
    validate_rng_seed (some 5) 7 = .ok (5, (5 : ℤ).toNat) :=
  ⟨(seed_reporting_amended 7).1, (seed_reporting_amended 7).2 5 (by decide)⟩

/-- A produced array whose every y entry is non-finite violates the
Dataset finiteness invariant as soon as it is nonempty. -/
theorem datasetFinite_false_of (d : List (FloatVal × FloatVal))
    (hne : d ≠ [])
    (hall : ∀ row ∈ d, row.2.isFinite = false) :
    datasetFinite d = false := by
  cases d with
  | nil => exact absurd rfl hne
  | cons r rest =>
    have h2 := hall r (List.mem_cons_self r rest)
    simp [datasetFinite, h2]

/-- C9: `fit` and `resample` never mutate their input Dataset: threading
the backing array through every numpy operation the source applies to
it, the array observed after each call equals the array passed in, and
the computed value agrees with the plain operation. -/
theorem fit_resample_no_mutation :
    (∀ (data : List (ℚ × ℚ)) (beta : ℚ × ℚ) (after : List (ℚ × ℚ)),
        estimate_beta_frame data = .ok (beta, after) →
        after = data ∧ estimate_beta data = .ok beta) ∧
    (∀ (data : List (ℚ × ℚ)) (B : ℤ) (seed : Option ℤ) (e : ℕ)
        (samples : List (List (ℚ × ℚ))) (after : List (ℚ × ℚ)),
        bootstrap_samples_frame data B seed e = .ok (samples, after) →
        after = data ∧ bootstrap_samples data B seed e = .ok samples) := by
  constructor
  · intro data beta after h
    cases hv : validate_xy_data data 2 with
    | error err =>
      simp [estimate_beta_frame, npAsarray, npColFst, npColSnd, hv] at h
    | ok d =>
      obtain rfl : d = data := validate_xy_eq data 2 d hv
      simp only [estimate_beta_frame, npAsarray, npColFst, npColSnd, hv]
        at h
      simp only [estimate_beta, hv]
      split at h
      · exact absurd h (by simp)
      · rename_i hc
        simp only [Except.ok.injEq, Prod.mk.injEq] at h
        obtain ⟨hbeta, hafter⟩ := h
        refine ⟨hafter.symm, ?_⟩
        rw [if_neg hc, hbeta]
  · intro data B seed e samples after h
    cases hv : validate_xy_data data 2 with
    | error err =>
      simp [bootstrap_samples_frame, npAsarray, npFancyIndex, hv] at h
    | ok d =>
      obtain rfl : d = data := validate_xy_eq data 2 d hv
      cases hB : validate_int "B" B (some 1) none with
      | error err =>
        simp [bootstrap_samples_frame, npAsarray, npFancyIndex, hv, hB]
          at h
      | ok Bv =>
        cases hsg : validate_rng_seed seed e with
        | error err =>
          simp [bootstrap_samples_frame, npAsarray, npFancyIndex, hv, hB,
            hsg] at h
        | ok sg =>
          simp only [bootstrap_samples_frame, npAsarray, npFancyIndex,
            hv, hB, hsg, Except.ok.injEq, Prod.mk.injEq] at h
          obtain ⟨hsamp, hafter⟩ := h
          refine ⟨hafter.symm, ?_⟩
          simp only [bootstrap_samples, hv, hB, hsg]
          rw [hsamp]

/-- C9 witness: a concrete fit and a concrete resample, each leaving the
input Dataset unchanged. -/
theorem fit_resample_no_mutation_witness :
    ([((1 : ℚ), (1 : ℚ)), (0, 0)] = [((1 : ℚ), (1 : ℚ)), (0, 0)] ∧
      estimate_beta [((1 : ℚ), (1 : ℚ)), (0, 0)] = .ok (0, 1)) ∧
    ([((1 : ℚ), (1 : ℚ)), (0, 0)] = [((1 : ℚ), (1 : ℚ)), (0, 0)] ∧
      bootstrap_samples [((1 : ℚ), (1 : ℚ)), (0, 0)] 1 (some 0) 0
        = .ok [[((0 : ℚ), (0 : ℚ)), (1, 1)]]) :=
  ⟨fit_resample_no_mutation.1 [((1 : ℚ), (1 : ℚ)), (0, 0)] (0, 1)
     [((1 : ℚ), (1 : ℚ)), (0, 0)]
     (by norm_num [estimate_beta_frame, npAsarray, npColFst, npColSnd,
       validate_xy_data]),
   fit_resample_no_mutation.2 [((1 : ℚ), (1 : ℚ)), (0, 0)] 1 (some 0) 0
     [[((0 : ℚ), (0 : ℚ)), (1, 1)]] [((1 : ℚ), (1 : ℚ)), (0, 0)]
     (by decide)⟩

/-- C10: `simulate` validates only N, the two sigmas and (via the
generator) the seed; it returns normally for every float intercept and
slope, including non-finite ones, and when the intercept or slope is
non-finite every produced y entry is non-finite, so the returned array
violates the Dataset invariant that no row contains NaN or infinite
values. -/
theorem simulate_skips_beta_validation :
    ∀ (N : ℤ) (beta_0 beta_1 : FloatVal) (x_sigma epsilon_sigma : ℚ)
      (s : ℤ) (e : ℕ),
      2 ≤ N → 0 < x_sigma → 0 < epsilon_sigma → 0 ≤ s →
      ∃ out,
        simulate_data N beta_0 beta_1 x_sigma epsilon_sigma (some s) e
          = .ok out ∧
        out.length = N.toNat ∧
        (¬(beta_0.isFinite = true ∧ beta_1.isFinite = true) →
          (∀ row ∈ out, row.2.isFinite = false) ∧
            datasetFinite out = false) := by
  intro N b0 b1 xsig esig s e hN hx he hs
  simp only [simulate_data, ok_of_validate_int "N" N 2 hN,
    validate_positive, validate_real, if_neg (not_le.2 hx),
    if_neg (not_le.2 he), default_rng, if_neg (not_lt.2 hs)]
  refine ⟨_, rfl, ?_, ?_⟩
  · simp
  · intro hnf
    refine ⟨?_, ?_⟩
    · intro row hrow
      simp only [List.mem_map] at hrow
      obtain ⟨i, _, rfl⟩ := hrow
      exact simulate_y_not_finite b0 b1 _ _ hnf
    · apply datasetFinite_false_of
      · simp only [ne_eq, List.map_eq_nil_iff, List.range_eq_nil]
        omega
      · intro row hrow
        simp only [List.mem_map] at hrow
        obtain ⟨i, _, rfl⟩ := hrow
        exact simulate_y_not_finite b0 b1 _ _ hnf

/-- C10 witness: `simulate` with an infinite intercept on otherwise
valid arguments succeeds and its output violates the finiteness
invariant. -/
theorem simulate_skips_beta_validation_witness :
    ∃ out, simulate_data 2 FloatVal.inf (.fin 2) 1 1 (some 0) 0
        = .ok out ∧
      out.length = (2 : ℤ).toNat ∧
      (¬(FloatVal.inf.isFinite = true ∧ (FloatVal.fin 2).isFinite = true) →
        (∀ row ∈ out, row.2.isFinite = false) ∧
          datasetFinite out = false) :=
  simulate_skips_beta_validation 2 .inf (.fin 2) 1 1 0 0 (by decide)
    (by norm_num) (by norm_num) (by decide)
